import Mathlib

/-!
Verification of the blockwise quantization codec and the QNN
quantization-parameter utilities of the onnxruntime repository.

The C++ sources are shallowly embedded: machine floating point arithmetic is
modelled by exact rational arithmetic (`ℚ`), machine integers by `ℤ`/`ℕ`,
fallible functions by `Option`.  The embedded functions follow
`contrib_ops/cpu/quantization/blockwise_quant_block.h` and
`core/providers/qnn/builder/qnn_utils.cc` line by line.
-/

namespace OnnxQuant

/-! ### Primitive numeric operations

`std::min`, `std::max` and `fabsf` are embedded as explicit conditionals
(as the hardware executes them, and so that every definition reduces in the
kernel); they coincide with Mathlib's `min`/`max`/`abs`, see the bridge
lemmas below. -/

/-- `std::max(a, b)`. -/
def qmax2 (a b : ℚ) : ℚ := if a < b then b else a

/-- `std::min(a, b)`. -/
def qmin2 (a b : ℚ) : ℚ := if b < a then b else a

/-- `fabsf(x)` / `abs(x)`. -/
def qabs (x : ℚ) : ℚ := if x < 0 then -x else x

/-- `std::min` on 32-bit integers. -/
def zmin (a b : ℤ) : ℤ := if b < a then b else a

/-! ### Rounding primitives -/

/-- `std::round`/`roundf`: round to nearest, halfway cases away from zero. -/
def roundAway (x : ℚ) : ℤ :=
  if 0 ≤ x then ⌊x + 1/2⌋ else -⌊-x + 1/2⌋

/-- Modelled from the spec: `RoundHalfToEven` is called by `GetQuantParams`
in `qnn_utils.cc` but its body lives in another file of the repository (not
in the provided sources).  Per the spec, the zero-point is
"rounded half-to-even": ties at `.5` go to the even integer, all other
values go to the nearest integer. -/
def roundHalfToEven (x : ℚ) : ℤ :=
  if Int.fract x = 1/2 then (if Even ⌊x⌋ then ⌊x⌋ else ⌊x⌋ + 1) else round x

/-! ### `qnn_utils.cc` embeddings -/

/-- `Saturate` (qnn_utils.cc): clamp `v` into `[qmin, qmax]`
(argument order follows the source: `Saturate(qmax, qmin, quant_value)`).
This is the `T = float` instantiation, on `ℚ`. -/
def saturateQ (qmax qmin v : ℚ) : ℚ :=
  if v > qmax then qmax else if v < qmin then qmin else v

/-- `Saturate` (qnn_utils.cc), the `T = int` instantiation, on `ℤ`. -/
def saturateZ (qmax qmin v : ℤ) : ℤ :=
  if v > qmax then qmax else if v < qmin then qmin else v

/-- `CheckMinMax` (qnn_utils.cc): enforce a minimum range of `0.0001`
and force the range to include `0`. -/
def CheckMinMax (rmin rmax : ℚ) : ℚ × ℚ :=
  (qmin2 rmin 0, qmax2 (qmax2 rmax (rmin + 1/10000)) 0)

/-- The QNN data types that occur in the type-mapping tables of
`qnn_utils.cc`. -/
inductive QnnDataType where
  | int8 | int16 | int32 | int64
  | uint8 | uint16 | uint32 | uint64
  | float16 | float32 | bool8
  | sfixedPoint8 | sfixedPoint16 | sfixedPoint32
  | ufixedPoint8 | ufixedPoint16 | ufixedPoint32
  deriving DecidableEq, Fintype

/-- `GetQminQmax` (qnn_utils.cc): representable bounds of the target
fixed-point type; every type not in the if/else chain is a reported error
(`none`). -/
def getQminQmax : QnnDataType → Option (ℤ × ℤ)
  | .sfixedPoint8 => some (-128, 127)
  | .ufixedPoint8 => some (0, 255)
  | .sfixedPoint16 => some (-32768, 32767)
  | .ufixedPoint16 => some (0, 65535)
  | .sfixedPoint32 => some (-2147483648, 2147483647)
  | _ => none

/-- `GetQuantParams` (qnn_utils.cc): derive `(scale, zero_point)` from a
float range.  Returns `none` when `GetQminQmax` fails. -/
def getQuantParams (rmin rmax : ℚ) (dt : QnnDataType) (symmetric : Bool) :
    Option (ℚ × ℤ) :=
  let p := CheckMinMax rmin rmax
  let rmin₁ := p.1
  let rmax₁ := p.2
  let absMax := qmax2 (qabs rmax₁) (qabs rmin₁)
  let rmin₂ := if symmetric then -absMax else rmin₁
  let rmax₂ := if symmetric then absMax else rmax₁
  match getQminQmax dt with
  | none => none
  | some (qmin, qmax) =>
    let scale := (rmax₂ - rmin₂) / ((qmax : ℚ) - (qmin : ℚ))
    let izp : ℚ :=
      if symmetric then ((roundAway (rmin₂ + rmax₂) : ℤ) : ℚ) / 2
      else (qmin : ℚ) - rmin₂ / scale
    let zp : ℤ := roundHalfToEven (saturateQ (qmax : ℚ) (qmin : ℚ) izp)
    some (scale, 0 - zp)

/-- The zero-point pipeline exactly as the claim words it: the initial
zero-point is `round((rmin+rmax)/2)` in symmetric mode and
`qmin - rmin/scale` in asymmetric mode; it is then rounded half-to-even,
saturated into `[qmin, qmax]`, and finally negated.  (Definition written
from the spec sentence, for comparison with `getQuantParams`.) -/
def zeroPointSpec (rmin rmax : ℚ) (qmin qmax : ℤ) (symmetric : Bool) : ℤ :=
  let p := CheckMinMax rmin rmax
  let rmin₁ := p.1
  let rmax₁ := p.2
  let absMax := qmax2 (qabs rmax₁) (qabs rmin₁)
  let rmin₂ := if symmetric then -absMax else rmin₁
  let rmax₂ := if symmetric then absMax else rmax₁
  let scale := (rmax₂ - rmin₂) / ((qmax : ℚ) - (qmin : ℚ))
  let izp : ℚ :=
    if symmetric then ((roundAway ((rmin₂ + rmax₂) / 2) : ℤ) : ℚ)
    else (qmin : ℚ) - rmin₂ / scale
  0 - saturateZ qmax qmin (roundHalfToEven izp)

/-- `Quantize` (qnn_utils.cc): `round(value/scale - zero_point)` saturated
into the bounds of the target type; `none` when `GetQminQmax` fails. -/
def quantize (v scale : ℚ) (zp : ℤ) (dt : QnnDataType) : Option ℤ :=
  match getQminQmax dt with
  | none => none
  | some (qmin, qmax) => some (saturateZ qmax qmin (roundAway (v / scale - (zp : ℚ))))

/-- `Dequantize` (qnn_utils.cc): `(quant_value + offset) * scale`. -/
def dequantize (offset : ℤ) (scale : ℚ) (q : ℚ) : ℚ :=
  (q + (offset : ℚ)) * scale

/-! ### `blockwise_quant_block.h`, `bits = 4` specialization -/

/-- `klen = std::min(block_size, K - k_idx)`: number of valid elements of
the block. -/
def klenOf (bs : ℕ) (k K : ℤ) : ℕ := (zmin (bs : ℤ) (K - k)).toNat

/-- `reciprocal_scale = scale ? 1.0f / scale : 0.0f`. -/
def recipOf (s : ℚ) : ℚ := if s = 0 then 0 else 1 / s

/-- `scale = (max - min) / ((1 << bits) - 1)` with `m = 2^bits - 1`. -/
def blkScale (m : ℕ) (mn mx : ℚ) : ℚ := (mx - mn) / (m : ℚ)

/-- `zero_point_fp`: `min` when `scale == 0`, else `0 - min / scale`. -/
def blkZpf (m : ℕ) (mn mx : ℚ) : ℚ :=
  if blkScale m mn mx = 0 then mn else 0 - mn / blkScale m mn mx

/-- The zero-point byte: `zero_point_fp` clamped into `[0, m]` and rounded
to nearest (the two clamping branches mirror the source). -/
def blkZp (m : ℕ) (mn mx : ℚ) : ℕ :=
  if blkZpf m mn mx < 0 then 0
  else if (m : ℚ) < blkZpf m mn mx then m
  else (roundAway (blkZpf m mn mx)).toNat

/-- One asymmetric quantized element:
`(uint8_t)std::min(m, std::max(0.0f, roundf(v * reciprocal_scale + zp)))`
(the `uint8_t` cast truncates the — already integral — clamped value). -/
def qOne (m : ℕ) (recip : ℚ) (zp : ℕ) (v : ℚ) : ℕ :=
  (⌊qmin2 (m : ℚ) (qmax2 0 ((roundAway (v * recip + (zp : ℚ)) : ℤ) : ℚ))⌋).toNat

/-- One symmetric quantized element:
`(uint8_t)std::min(15.0f, std::max(0.0f, v * reciprocal_scale + 8.5f))`
(the `uint8_t` cast truncates, i.e. takes the floor of the clamped value). -/
def symQOne (recip v : ℚ) : ℕ :=
  (⌊qmin2 15 (qmax2 0 (v * recip + 17/2))⌋).toNat

/-- `float min = *src; for (kk < klen) if (v < min) min = v;` -/
def rawMin (src : ℕ → ℚ) (N klen : ℕ) : ℚ :=
  (List.range klen).foldl (fun m kk => if src (N * kk) < m then src (N * kk) else m) (src 0)

/-- `float max = *src; for (kk < klen) if (v > max) max = v;` -/
def rawMax (src : ℕ → ℚ) (N klen : ℕ) : ℚ :=
  (List.range klen).foldl (fun m kk => if m < src (N * kk) then src (N * kk) else m) (src 0)

/-- The packing loop: iteration `j` writes byte `j` of `main_blob` as
`vi0 | (vi1 << 4)` with `vi0 = f (2j)`, `vi1 = f (2j+1)`.  `packBytes f n b`
performs the first `n` iterations starting from blob contents `b`. -/
def packBytes (f : ℕ → ℕ) : ℕ → (ℕ → ℕ) → ℕ → ℕ
  | 0, blob => blob
  | n + 1, blob =>
    Function.update (packBytes f n blob) n (f (2 * n) ||| (f (2 * n + 1) <<< 4))

/-- `min = std::min(min, 0.0f)` after the scan of the valid elements. -/
def asymMn (bs : ℕ) (src : ℕ → ℚ) (N : ℕ) (k K : ℤ) : ℚ :=
  qmin2 (rawMin src N (klenOf bs k K)) 0

/-- `max = std::max(max, 0.0f)` after the scan of the valid elements. -/
def asymMx (bs : ℕ) (src : ℕ → ℚ) (N : ℕ) (k K : ℤ) : ℚ :=
  qmax2 (rawMax src N (klenOf bs k K)) 0

/-- `scale = (max - min) / ((1 << 4) - 1)` of the asymmetric quant. -/
def asymScale (bs : ℕ) (src : ℕ → ℚ) (N : ℕ) (k K : ℤ) : ℚ :=
  blkScale 15 (asymMn bs src N k K) (asymMx bs src N k K)

/-- The zero-point byte of the asymmetric quant. -/
def asymZp (bs : ℕ) (src : ℕ → ℚ) (N : ℕ) (k K : ℤ) : ℕ :=
  blkZp 15 (asymMn bs src N k K) (asymMx bs src N k K)

/-- Element `kk` as packed by the asymmetric quant loop (elements at
`kk ≥ klen` are the padding value `0.f` of the source). -/
def asymF (bs : ℕ) (src : ℕ → ℚ) (N : ℕ) (k K : ℤ) : ℕ → ℕ :=
  fun kk => qOne 15 (recipOf (asymScale bs src N k K)) (asymZp bs src N k K)
    (if kk < klenOf bs k K then src (N * kk) else 0)

/-- `BlockwiseQuantBlock<T, block_size, 4>::quant` (asymmetric overload):
returns the packed blob (starting from initial contents `blob0`), the block
scale and the zero-point byte. -/
def quantAsym (bs : ℕ) (src : ℕ → ℚ) (N : ℕ) (k K : ℤ) (blob0 : ℕ → ℕ) :
    (ℕ → ℕ) × ℚ × ℕ :=
  (packBytes (asymF bs src N k K) ((klenOf bs k K + 1) / 2) blob0,
   asymScale bs src N k K, asymZp bs src N k K)

/-- The `(amax, max)` pair of the symmetric quant scan:
`if (amax < fabsf(v)) { amax = fabsf(v); max = v; }`. -/
def symAmaxPair (bs : ℕ) (src : ℕ → ℚ) (N : ℕ) (k K : ℤ) : ℚ × ℚ :=
  (List.range (klenOf bs k K)).foldl
    (fun p kk => if p.1 < qabs (src (N * kk)) then (qabs (src (N * kk)), src (N * kk)) else p)
    ((0 : ℚ), (0 : ℚ))

/-- `scale = max / (-8.f)` of the symmetric quant. -/
def symScale (bs : ℕ) (src : ℕ → ℚ) (N : ℕ) (k K : ℤ) : ℚ :=
  (symAmaxPair bs src N k K).2 / (-8)

/-- Element `kk` as packed by the symmetric quant loop. -/
def symF (bs : ℕ) (src : ℕ → ℚ) (N : ℕ) (k K : ℤ) : ℕ → ℕ :=
  fun kk => symQOne (recipOf (symScale bs src N k K))
    (if kk < klenOf bs k K then src (N * kk) else 0)

/-- `BlockwiseQuantBlock<T, block_size, 4>::quant` (symmetric overload):
`amax`/`max` scan, `scale = max / (-8)`, then the packing loop. -/
def quantSym (bs : ℕ) (src : ℕ → ℚ) (N : ℕ) (k K : ℤ) (blob0 : ℕ → ℕ) :
    (ℕ → ℕ) × ℚ :=
  (packBytes (symF bs src N k K) ((klenOf bs k K + 1) / 2) blob0,
   symScale bs src N k K)

/-- Nibble `i` of the packed blob: `main_blob[i/2] & 0xF` for even `i`,
`main_blob[i/2] >> 4` for odd `i`. -/
def nibAt (blob : ℕ → ℕ) (i : ℕ) : ℕ :=
  if i % 2 = 0 then blob (i / 2) &&& 15 else blob (i / 2) >>> 4

/-- One iteration of the dequant loop at even index `i`: write `dst[i]`
when `k_idx + i < K` and `dst[i+1]` when `k_idx + i + 1 < K`. -/
def dequantStep (blob : ℕ → ℕ) (scale : ℚ) (zp : ℕ) (k K : ℤ) (dst : ℕ → ℚ)
    (i : ℕ) : ℕ → ℚ :=
  let d1 := if k + (i : ℤ) < K
    then Function.update dst i (scale * (((blob (i / 2) &&& 15 : ℕ) : ℚ) - (zp : ℚ)))
    else dst
  if k + (i : ℤ) + 1 < K
    then Function.update d1 (i + 1) (scale * (((blob (i / 2) >>> 4 : ℕ) : ℚ) - (zp : ℚ)))
    else d1

/-- `BlockwiseQuantBlock<T, block_size, 4>::dequant` (explicit zero-point):
the loop `for (i = 0; i < block_size; i += 2)`. -/
def dequant4 (bs : ℕ) (blob : ℕ → ℕ) (scale : ℚ) (zp : ℕ) (k K : ℤ)
    (dst : ℕ → ℚ) : ℕ → ℚ :=
  (List.range (bs / 2)).foldl (fun d j => dequantStep blob scale zp k K d (2 * j)) dst

/-- `dequant` overload without zero-point: `constexpr uint8_t zp = 8`. -/
def dequant4Default (bs : ℕ) (blob : ℕ → ℕ) (scale : ℚ) (k K : ℤ)
    (dst : ℕ → ℚ) : ℕ → ℚ :=
  dequant4 bs blob scale 8 k K dst

/-! ### Generic-width value-level model (spec §4.1–4.2)

The `bits ∈ {3, 5, 6, 7}` specializations of `BlockwiseQuantBlock` are only
declared in the provided sources (their bodies live elsewhere in the
repository), so the per-value quantization path for a generic width is
modelled from the spec here; for `bits = 4` it coincides with the code
above. -/

/-- Modelled from the spec: block `min`/`max` over the valid values,
clamped so the range includes `0` (spec §4.2). -/
def specMinMax (vals : List ℚ) : ℚ × ℚ :=
  (qmin2 (vals.foldl (fun m v => qmin2 m v) (vals.headD 0)) 0,
   qmax2 (vals.foldl (fun m v => qmax2 m v) (vals.headD 0)) 0)

/-- Modelled from the spec: `scale = (max - min) / (2^bits - 1)` for a
block of values, `bits = b` (spec §4.2). -/
def specScaleOf (b : ℕ) (vals : List ℚ) : ℚ :=
  blkScale (2 ^ b - 1) (specMinMax vals).1 (specMinMax vals).2

/-- Modelled from the spec: the zero-point of a block for width `b`,
clamped into `[0, 2^b - 1]` and rounded to nearest (spec §4.2). -/
def specZpOf (b : ℕ) (vals : List ℚ) : ℕ :=
  blkZp (2 ^ b - 1) (specMinMax vals).1 (specMinMax vals).2

/-- Modelled from the spec: element `i` of a block quantized at width `b`
(`round(v/scale + zero_point)` saturated into `[0, 2^b - 1]`) and
dequantized again (`scale * (q - zero_point)`); the bit-packer is exact
(pack/unpack is the identity on `b`-bit codes, spec §4.1), so it does not
appear at the value level. -/
def specDequantElem (b : ℕ) (vals : List ℚ) (i : ℕ) : ℚ :=
  specScaleOf b vals
    * ((qOne (2 ^ b - 1) (recipOf (specScaleOf b vals)) (specZpOf b vals)
          (vals.getD i 0) : ℚ)
        - (specZpOf b vals : ℚ))

/-! ### Concrete example inputs used as counterexamples and witnesses -/

/-- Example source column: `1.0, 0.3, 0, 0, 0, 0, 0, 0` (unit stride). -/
def srcEx : ℕ → ℚ := fun kk => if kk = 0 then 1 else if kk = 1 then 3/10 else 0

/-- Example constant-one source column. -/
def srcOnes : ℕ → ℚ := fun _ => 1

/-- Example constant-zero source column. -/
def srcZeros : ℕ → ℚ := fun _ => 0

/-! ### Bridge lemmas for the primitive operations -/

theorem qmax2_eq_max (a b : ℚ) : qmax2 a b = max a b := by
  unfold qmax2
  split_ifs with h
  · exact (max_eq_right h.le).symm
  · exact (max_eq_left (not_lt.mp h)).symm

theorem qmin2_eq_min (a b : ℚ) : qmin2 a b = min a b := by
  unfold qmin2
  split_ifs with h
  · exact (min_eq_right h.le).symm
  · exact (min_eq_left (not_lt.mp h)).symm

theorem qabs_eq_abs (x : ℚ) : qabs x = |x| := by
  unfold qabs
  split_ifs with h
  · exact (abs_of_neg h).symm
  · exact (abs_of_nonneg (not_lt.mp h)).symm

theorem zmin_eq_min (a b : ℤ) : zmin a b = min a b := by
  unfold zmin
  split_ifs with h
  · exact (min_eq_right h.le).symm
  · exact (min_eq_left (not_lt.mp h)).symm

/-! ### Rounding lemmas -/

theorem roundAway_err (x : ℚ) : |((roundAway x : ℤ) : ℚ) - x| ≤ 1/2 := by
  unfold roundAway
  rcases le_or_lt 0 x with h | h
  · rw [if_pos h]
    have h1 : ((⌊x + 1/2⌋ : ℤ) : ℚ) ≤ x + 1/2 := Int.floor_le _
    have h2 : x + 1/2 < ((⌊x + 1/2⌋ : ℤ) : ℚ) + 1 := Int.lt_floor_add_one _
    rw [abs_le]
    constructor <;> linarith
  · rw [if_neg (not_le.mpr h)]
    have h1 : ((⌊-x + 1/2⌋ : ℤ) : ℚ) ≤ -x + 1/2 := Int.floor_le _
    have h2 : -x + 1/2 < ((⌊-x + 1/2⌋ : ℤ) : ℚ) + 1 := Int.lt_floor_add_one _
    rw [abs_le]
    push_cast
    constructor <;> linarith

theorem floor_one_half : ⌊(1 : ℚ)/2⌋ = 0 := by
  apply Int.floor_eq_zero_iff.mpr
  constructor <;> norm_num

theorem roundAway_intCast (n : ℤ) : roundAway (n : ℚ) = n := by
  unfold roundAway
  rcases le_or_lt 0 n with h | h
  · rw [if_pos (by exact_mod_cast h)]
    rw [show ((n : ℚ) + 1/2) = 1/2 + (n : ℤ) by ring]
    rw [Int.floor_add_int, floor_one_half, zero_add]
  · rw [if_neg (by exact not_le.mpr (by exact_mod_cast h))]
    rw [show (-(n : ℚ) + 1/2) = 1/2 + ((-n : ℤ) : ℚ) by push_cast; ring]
    rw [Int.floor_add_int, floor_one_half, zero_add, neg_neg]

theorem roundAway_natCast (n : ℕ) : roundAway (n : ℚ) = n := by
  rw [show ((n : ℚ)) = ((n : ℤ) : ℚ) by norm_cast]
  exact roundAway_intCast n

theorem roundHalfToEven_intCast (n : ℤ) : roundHalfToEven (n : ℚ) = n := by
  unfold roundHalfToEven
  rw [Int.fract_intCast]
  rw [if_neg (by norm_num)]
  exact round_intCast n

theorem floor_le_roundHalfToEven (x : ℚ) : ⌊x⌋ ≤ roundHalfToEven x := by
  unfold roundHalfToEven
  split_ifs with h1 h2
  · exact le_refl _
  · omega
  · rw [round_eq]
    exact Int.floor_le_floor (by linarith)

theorem roundHalfToEven_le_ceil (x : ℚ) : roundHalfToEven x ≤ ⌈x⌉ := by
  unfold roundHalfToEven
  split_ifs with h1 h2
  · exact Int.floor_le_ceil x
  · have hf : x - ⌊x⌋ = 1/2 := by rw [Int.self_sub_floor]; exact h1
    have hx : ((⌊x⌋ : ℤ) : ℚ) < x := by linarith
    have : ⌊x⌋ < ⌈x⌉ := Int.lt_ceil.mpr hx
    omega
  · rw [round_eq]
    have hc : x ≤ ((⌈x⌉ : ℤ) : ℚ) := Int.le_ceil x
    have hfl : ((⌊x + 1/2⌋ : ℤ) : ℚ) ≤ x + 1/2 := Int.floor_le _
    have : ⌊x + 1/2⌋ < ⌈x⌉ + 1 := by
      have : ((⌊x + 1/2⌋ : ℤ) : ℚ) < ((⌈x⌉ : ℤ) : ℚ) + 1 := by linarith
      exact_mod_cast this
    omega

theorem saturateZ_bounds (qmax qmin v : ℤ) (hq : qmin ≤ qmax) :
    qmin ≤ saturateZ qmax qmin v ∧ saturateZ qmax qmin v ≤ qmax := by
  unfold saturateZ
  split_ifs <;> omega

theorem roundHalfToEven_saturate (qmin qmax : ℤ) (hq : qmin ≤ qmax) (x : ℚ) :
    roundHalfToEven (saturateQ (qmax : ℚ) (qmin : ℚ) x)
      = saturateZ qmax qmin (roundHalfToEven x) := by
  unfold saturateQ saturateZ
  by_cases h1 : (qmax : ℚ) < x
  · rw [if_pos h1, roundHalfToEven_intCast]
    have hr : qmax ≤ roundHalfToEven x :=
      le_trans (Int.le_floor.mpr h1.le) (floor_le_roundHalfToEven x)
    rcases lt_or_eq_of_le hr with h | h
    · rw [if_pos h]
    · rw [if_neg (by omega), if_neg (by omega), ← h]
  · by_cases h2 : x < (qmin : ℚ)
    · rw [if_neg h1, if_pos h2, roundHalfToEven_intCast]
      have hr : roundHalfToEven x ≤ qmin :=
        le_trans (roundHalfToEven_le_ceil x) (Int.ceil_le.mpr h2.le)
      rw [if_neg (by omega)]
      rcases lt_or_eq_of_le hr with h | h
      · rw [if_pos h]
      · rw [if_neg (by omega), h]
    · rw [if_neg h1, if_neg h2]
      have low : qmin ≤ roundHalfToEven x :=
        le_trans (Int.le_floor.mpr (not_lt.mp h2)) (floor_le_roundHalfToEven x)
      have high : roundHalfToEven x ≤ qmax :=
        le_trans (roundHalfToEven_le_ceil x) (Int.ceil_le.mpr (not_lt.mp h1))
      rw [if_neg (by omega), if_neg (by omega)]

theorem getQminQmax_zero_mem {dt : QnnDataType} {qmin qmax : ℤ}
    (h : getQminQmax dt = some (qmin, qmax)) : qmin ≤ 0 ∧ 0 ≤ qmax := by
  cases dt <;> simp [getQminQmax, Prod.ext_iff] at h <;> omega

/-! ### Claims C3, C4, C5 -/

/-- C3 (counterexample): `GetQminQmax` reports an error for the unsigned
32-bit fixed-point type, so it does not return bounds for every signed and
unsigned 8/16/32-bit type as claimed. -/
theorem c3_counterexample : getQminQmax QnnDataType.ufixedPoint32 = none := rfl

/-- C3 (amended): `GetQminQmax` returns the representable bounds for signed
8/16/32-bit and unsigned 8/16-bit fixed-point types, and reports an error
(rather than defaulting) for every other type — including unsigned 32-bit. -/
theorem c3_qminqmax_table :
    getQminQmax QnnDataType.sfixedPoint8 = some (-128, 127) ∧
    getQminQmax QnnDataType.ufixedPoint8 = some (0, 255) ∧
    getQminQmax QnnDataType.sfixedPoint16 = some (-32768, 32767) ∧
    getQminQmax QnnDataType.ufixedPoint16 = some (0, 65535) ∧
    getQminQmax QnnDataType.sfixedPoint32 = some (-2147483648, 2147483647) ∧
    ∀ dt : QnnDataType,
      dt ∉ [QnnDataType.sfixedPoint8, QnnDataType.ufixedPoint8,
            QnnDataType.sfixedPoint16, QnnDataType.ufixedPoint16,
            QnnDataType.sfixedPoint32] →
      getQminQmax dt = none := by
  refine ⟨rfl, rfl, rfl, rfl, rfl, ?_⟩
  decide

theorem c3_qminqmax_table_witness :
    QnnDataType.ufixedPoint32 ∉ [QnnDataType.sfixedPoint8, QnnDataType.ufixedPoint8,
      QnnDataType.sfixedPoint16, QnnDataType.ufixedPoint16,
      QnnDataType.sfixedPoint32] ∧
    getQminQmax QnnDataType.ufixedPoint32 = none :=
  ⟨by decide, c3_qminqmax_table.2.2.2.2.2 QnnDataType.ufixedPoint32 (by decide)⟩

/-- C4: for every `(rmin, rmax)`, the pair returned by `CheckMinMax` spans
at least `0.0001` and includes `0`. -/
theorem c4_checkminmax_span (rmin rmax : ℚ) :
    1/10000 ≤ (CheckMinMax rmin rmax).2 - (CheckMinMax rmin rmax).1 ∧
    (CheckMinMax rmin rmax).1 ≤ 0 ∧ 0 ≤ (CheckMinMax rmin rmax).2 := by
  simp only [CheckMinMax, qmin2_eq_min, qmax2_eq_max]
  refine ⟨?_, min_le_right _ _, le_max_right _ _⟩
  have hup : rmin + 1/10000 ≤ max (max rmax (rmin + 1/10000)) 0 :=
    le_trans (le_max_right _ _) (le_max_left _ _)
  rcases le_or_lt rmin 0 with h | h
  · rw [min_eq_left h]
    linarith
  · rw [min_eq_right h.le]
    linarith

/-- C5 (counterexample): with `rmin = rmax = 0` (which satisfies
`rmin ≤ 0 ≤ rmax`), `CheckMinMax` is not a no-op — the minimum-span rule
moves `rmax` to `0.0001`. -/
theorem c5_counterexample : CheckMinMax 0 0 ≠ (0, 0) := by
  have h : CheckMinMax 0 0 = (0, 1/10000) := by with_unfolding_all rfl
  rw [h]
  intro hc
  have h2 := congrArg Prod.snd hc
  norm_num at h2

/-- C5 (amended): `CheckMinMax` is a no-op when `rmin ≤ 0 ≤ rmax` and the
range already spans at least `0.0001`; and for `rmin > 0` the output range
includes `0`. -/
theorem c5_checkminmax_zero (rmin rmax : ℚ) :
    (rmin ≤ 0 → 0 ≤ rmax → rmin + 1/10000 ≤ rmax →
      CheckMinMax rmin rmax = (rmin, rmax)) ∧
    (0 < rmin →
      (CheckMinMax rmin rmax).1 ≤ 0 ∧ 0 ≤ (CheckMinMax rmin rmax).2) := by
  constructor
  · intro h1 h2 h3
    simp only [CheckMinMax, qmin2_eq_min, qmax2_eq_max]
    rw [min_eq_left h1, max_eq_left h3, max_eq_left h2]
  · intro _
    simp only [CheckMinMax, qmin2_eq_min, qmax2_eq_max]
    exact ⟨min_le_right _ _, le_max_right _ _⟩

theorem c5_checkminmax_zero_witness :
    ((-1 : ℚ) ≤ 0 ∧ (0 : ℚ) ≤ 2 ∧ (-1 : ℚ) + 1/10000 ≤ 2 ∧
      CheckMinMax (-1) 2 = (-1, 2)) ∧
    ((0 : ℚ) < 3 ∧ (CheckMinMax 3 4).1 ≤ 0 ∧ 0 ≤ (CheckMinMax 3 4).2) :=
  ⟨⟨by norm_num, by norm_num, by norm_num,
    (c5_checkminmax_zero (-1) 2).1 (by norm_num) (by norm_num) (by norm_num)⟩,
   ⟨by norm_num, (c5_checkminmax_zero 3 4).2 (by norm_num)⟩⟩

/-! ### Claims C2, C6, C10 -/

theorem roundAway_zero : roundAway (0 : ℚ) = 0 := by
  have h := roundAway_intCast 0
  simpa using h

theorem roundHalfToEven_zero : roundHalfToEven (0 : ℚ) = 0 := by
  have h := roundHalfToEven_intCast 0
  simpa using h

theorem saturateQ_zero (qmin qmax : ℤ) (hq0 : qmin ≤ 0) (hq1 : 0 ≤ qmax) :
    saturateQ (qmax : ℚ) (qmin : ℚ) 0 = 0 := by
  unfold saturateQ
  have h1 : ¬ ((0 : ℚ) > (qmax : ℚ)) := not_lt.mpr (by exact_mod_cast hq1)
  have h2 : ¬ ((0 : ℚ) < (qmin : ℚ)) := not_lt.mpr (by exact_mod_cast hq0)
  rw [if_neg h1, if_neg h2]

/-- C2: for every supported data type, `GetQuantParams` returns as
`zero_point` exactly the value described by the claim: the initial
zero-point (`round((rmin+rmax)/2)` symmetric, `qmin - rmin/scale`
asymmetric) rounded half-to-even, saturated into `[qmin, qmax]`, and
negated.  (In the source the saturation happens before the half-to-even
rounding and the symmetric initial zero-point is `round(rmin+rmax)/2`, but
both pipelines agree: saturation bounds are integers, and the symmetric
range is mirrored so `rmin + rmax = 0`.) -/
theorem c2_zero_point_pipeline (rmin rmax : ℚ) (dt : QnnDataType)
    (symmetric : Bool) (qmin qmax : ℤ)
    (h : getQminQmax dt = some (qmin, qmax)) :
    (getQuantParams rmin rmax dt symmetric).map Prod.snd
      = some (zeroPointSpec rmin rmax qmin qmax symmetric) := by
  obtain ⟨hq0, hq1⟩ := getQminQmax_zero_mem h
  have hqq : qmin ≤ qmax := le_trans hq0 hq1
  simp only [getQuantParams, zeroPointSpec, h, Option.map_some]
  rw [roundHalfToEven_saturate qmin qmax hqq]
  cases symmetric
  · simp
  · simp only [if_true, reduceIte]
    rw [neg_add_cancel, zero_div, roundAway_zero]
    norm_num

theorem c2_zero_point_pipeline_witness :
    getQminQmax QnnDataType.ufixedPoint8 = some (0, 255) ∧
    (getQuantParams 1 2 QnnDataType.ufixedPoint8 false).map Prod.snd
      = some (zeroPointSpec 1 2 0 255 false) :=
  ⟨rfl, c2_zero_point_pipeline 1 2 QnnDataType.ufixedPoint8 false 0 255 rfl⟩

/-- C6: for every supported data type, `Quantize` computes
`round(value/scale - zero_point)` and saturates it into `[qmin, qmax]`, so
the output never leaves the representable range of the target type. -/
theorem c6_quantize_saturates (dt : QnnDataType) (qmin qmax : ℤ)
    (h : getQminQmax dt = some (qmin, qmax)) (v scale : ℚ) (zp : ℤ) :
    quantize v scale zp dt
      = some (saturateZ qmax qmin (roundAway (v / scale - (zp : ℚ)))) ∧
    ∀ q : ℤ, quantize v scale zp dt = some q → qmin ≤ q ∧ q ≤ qmax := by
  have hqq : qmin ≤ qmax :=
    le_trans (getQminQmax_zero_mem h).1 (getQminQmax_zero_mem h).2
  constructor
  · simp only [quantize, h]
  · intro q hq
    simp only [quantize, h, Option.some.injEq] at hq
    rw [← hq]
    exact saturateZ_bounds qmax qmin _ hqq

theorem c6_quantize_saturates_witness :
    getQminQmax QnnDataType.ufixedPoint8 = some (0, 255) ∧
    (quantize 1000000000 (1/1000) 0 QnnDataType.ufixedPoint8
      = some (saturateZ 255 0 (roundAway (1000000000 / (1/1000) - (0 : ℚ)))) ∧
    ∀ q : ℤ, quantize 1000000000 (1/1000) 0 QnnDataType.ufixedPoint8 = some q →
      0 ≤ q ∧ q ≤ 255) :=
  ⟨rfl, c6_quantize_saturates QnnDataType.ufixedPoint8 0 255 rfl 1000000000 (1/1000) 0⟩

/-- C10: in symmetric mode the returned zero-point is `0` for every input
range and every supported data type: the range is mirrored to
`[-absmax, absmax]`, so the initial zero-point is `0`, and rounding,
saturation and negation all preserve `0`. -/
theorem c10_symmetric_zero_point (rmin rmax : ℚ) (dt : QnnDataType)
    (qmin qmax : ℤ) (h : getQminQmax dt = some (qmin, qmax)) :
    (getQuantParams rmin rmax dt true).map Prod.snd = some 0 := by
  obtain ⟨hq0, hq1⟩ := getQminQmax_zero_mem h
  simp only [getQuantParams, h, if_true, reduceIte, Option.map_some]
  rw [neg_add_cancel, roundAway_zero]
  norm_num
  rw [saturateQ_zero qmin qmax hq0 hq1, roundHalfToEven_zero]

theorem c10_symmetric_zero_point_witness :
    getQminQmax QnnDataType.sfixedPoint16 = some (-32768, 32767) ∧
    (getQuantParams (-3) 5 QnnDataType.sfixedPoint16 true).map Prod.snd = some 0 :=
  ⟨rfl, c10_symmetric_zero_point (-3) 5 QnnDataType.sfixedPoint16 (-32768) 32767 rfl⟩

/-! ### Fold lemmas for the min/max/amax scans -/

section Folds

variable {α : Type}

theorem foldl_min_le_init (g : α → ℚ) :
    ∀ (l : List α) (a : ℚ),
      l.foldl (fun m x => if g x < m then g x else m) a ≤ a := by
  intro l
  induction l with
  | nil => intro a; simp
  | cons h t ih =>
    intro a
    simp only [List.foldl_cons]
    refine le_trans (ih _) ?_
    split_ifs with hh
    · exact hh.le
    · exact le_refl a

theorem foldl_min_le (g : α → ℚ) :
    ∀ (l : List α) (a : ℚ) (x : α), x ∈ l →
      l.foldl (fun m x => if g x < m then g x else m) a ≤ g x := by
  intro l
  induction l with
  | nil => intro a x hx; simp at hx
  | cons h t ih =>
    intro a x hx
    simp only [List.foldl_cons]
    rcases List.mem_cons.mp hx with rfl | hx
    · refine le_trans (foldl_min_le_init g t _) ?_
      split_ifs with hh
      · exact le_refl _
      · exact not_lt.mp hh
    · exact ih _ x hx

theorem foldl_max_init_le (g : α → ℚ) :
    ∀ (l : List α) (a : ℚ),
      a ≤ l.foldl (fun m x => if m < g x then g x else m) a := by
  intro l
  induction l with
  | nil => intro a; simp
  | cons h t ih =>
    intro a
    simp only [List.foldl_cons]
    refine le_trans ?_ (ih _)
    split_ifs with hh
    · exact hh.le
    · exact le_refl a

theorem foldl_le_max (g : α → ℚ) :
    ∀ (l : List α) (a : ℚ) (x : α), x ∈ l →
      g x ≤ l.foldl (fun m x => if m < g x then g x else m) a := by
  intro l
  induction l with
  | nil => intro a x hx; simp at hx
  | cons h t ih =>
    intro a x hx
    simp only [List.foldl_cons]
    rcases List.mem_cons.mp hx with rfl | hx
    · refine le_trans ?_ (foldl_max_init_le g t _)
      split_ifs with hh
      · exact le_refl _
      · exact not_lt.mp hh
    · exact ih _ x hx

theorem amax_fold (g : α → ℚ) :
    ∀ (l : List α) (p : ℚ × ℚ), p.1 = qabs p.2 →
      (l.foldl (fun p x => if p.1 < qabs (g x) then (qabs (g x), g x) else p) p).1
        = qabs (l.foldl (fun p x => if p.1 < qabs (g x) then (qabs (g x), g x) else p) p).2
      ∧ p.1 ≤ (l.foldl (fun p x => if p.1 < qabs (g x) then (qabs (g x), g x) else p) p).1
      ∧ ∀ x ∈ l, qabs (g x)
        ≤ (l.foldl (fun p x => if p.1 < qabs (g x) then (qabs (g x), g x) else p) p).1 := by
  intro l
  induction l with
  | nil =>
    intro p hp
    exact ⟨hp, le_refl _, by simp⟩
  | cons h t ih =>
    intro p hp
    simp only [List.foldl_cons]
    have hstep : (if p.1 < qabs (g h) then (qabs (g h), g h) else p).1
        = qabs (if p.1 < qabs (g h) then (qabs (g h), g h) else p).2 := by
      split_ifs with hh
      · rfl
      · exact hp
    obtain ⟨r1, r2, r3⟩ := ih _ hstep
    refine ⟨r1, le_trans ?_ r2, ?_⟩
    · split_ifs with hh
      · exact hh.le
      · exact le_refl _
    · intro x hx
      rcases List.mem_cons.mp hx with rfl | hx
      · refine le_trans ?_ r2
        split_ifs with hh
        · exact le_refl _
        · exact not_lt.mp hh
      · exact r3 x hx

end Folds

/-! ### Packing and unpacking lemmas -/

theorem packBytes_apply (f : ℕ → ℕ) :
    ∀ (n : ℕ) (blob : ℕ → ℕ) (j : ℕ),
      packBytes f n blob j
        = if j < n then f (2 * j) ||| (f (2 * j + 1) <<< 4) else blob j := by
  intro n
  induction n with
  | zero => intro blob j; simp [packBytes]
  | succ n ih =>
    intro blob j
    simp only [packBytes]
    rcases eq_or_ne j n with rfl | hne
    · rw [Function.update_same, if_pos (by omega)]
    · rw [Function.update_noteq hne, ih]
      by_cases hj : j < n
      · rw [if_pos hj, if_pos (by omega)]
      · rw [if_neg hj, if_neg (by omega)]

theorem packNib (a b : ℕ) (ha : a < 16) (hb : b < 16) :
    (a ||| (b <<< 4)) &&& 15 = a ∧ (a ||| (b <<< 4)) >>> 4 = b := by
  have h : ∀ x : Fin 16, ∀ y : Fin 16,
      ((x : ℕ) ||| ((y : ℕ) <<< 4)) &&& 15 = (x : ℕ) ∧
      ((x : ℕ) ||| ((y : ℕ) <<< 4)) >>> 4 = (y : ℕ) := by decide
  exact h ⟨a, ha⟩ ⟨b, hb⟩

theorem nibAt_packBytes (f : ℕ → ℕ) (hf : ∀ j, f j < 16) (n : ℕ)
    (blob0 : ℕ → ℕ) (i : ℕ) (hi : i < 2 * n) :
    nibAt (packBytes f n blob0) i = f i := by
  unfold nibAt
  by_cases hp : i % 2 = 0
  · rw [if_pos hp, packBytes_apply, if_pos (by omega)]
    have h2 : 2 * (i / 2) = i := by omega
    rw [h2]
    exact (packNib (f i) (f (i + 1)) (hf i) (hf (i + 1))).1
  · rw [if_neg hp, packBytes_apply, if_pos (by omega)]
    have h1 : 2 * (i / 2) = i - 1 := by omega
    have h2 : 2 * (i / 2) + 1 = i := by omega
    rw [h2, h1]
    exact (packNib (f (i - 1)) (f i) (hf (i - 1)) (hf i)).2

/-! ### Dequant loop characterization -/

theorem dequantStep_apply (blob : ℕ → ℕ) (scale : ℚ) (zp : ℕ) (k K : ℤ)
    (d : ℕ → ℚ) (i m : ℕ) (hi : i % 2 = 0) :
    dequantStep blob scale zp k K d i m
      = if m = i ∧ k + (i : ℤ) < K
        then scale * ((nibAt blob i : ℚ) - (zp : ℚ))
        else if m = i + 1 ∧ k + (i : ℤ) + 1 < K
          then scale * ((nibAt blob (i + 1) : ℚ) - (zp : ℚ))
          else d m := by
  have hlow : nibAt blob i = blob (i / 2) &&& 15 := by
    unfold nibAt
    rw [if_pos hi]
  have hhigh : nibAt blob (i + 1) = blob (i / 2) >>> 4 := by
    unfold nibAt
    rw [if_neg (by omega)]
    congr 2
    omega
  simp only [dequantStep]
  by_cases hc1 : k + (i : ℤ) + 1 < K
  · rw [if_pos hc1]
    by_cases hm1 : m = i + 1
    · subst hm1
      rw [Function.update_same, if_neg (by omega), if_pos ⟨rfl, hc1⟩, hhigh]
    · rw [Function.update_noteq hm1]
      by_cases hc0 : k + (i : ℤ) < K
      · rw [if_pos hc0]
        by_cases hm0 : m = i
        · subst hm0
          rw [Function.update_same, if_pos ⟨rfl, hc0⟩, hlow]
        · rw [Function.update_noteq hm0,
            if_neg (fun hcon => hm0 hcon.1), if_neg (fun hcon => hm1 hcon.1)]
      · rw [if_neg hc0,
          if_neg (fun hcon => hc0 hcon.2), if_neg (fun hcon => hm1 hcon.1)]
  · rw [if_neg hc1]
    by_cases hc0 : k + (i : ℤ) < K
    · rw [if_pos hc0]
      by_cases hm0 : m = i
      · subst hm0
        rw [Function.update_same, if_pos ⟨rfl, hc0⟩, hlow]
      · rw [Function.update_noteq hm0,
          if_neg (fun hcon => hm0 hcon.1), if_neg (fun hcon => hc1 hcon.2)]
    · rw [if_neg hc0,
        if_neg (fun hcon => hc0 hcon.2), if_neg (fun hcon => hc1 hcon.2)]

theorem dequantIter_apply (blob : ℕ → ℕ) (scale : ℚ) (zp : ℕ) (k K : ℤ) :
    ∀ (n : ℕ) (dst : ℕ → ℚ) (m : ℕ),
      ((List.range n).foldl (fun d j => dequantStep blob scale zp k K d (2 * j)) dst) m
        = if m < 2 * n ∧ k + (m : ℤ) < K
          then scale * ((nibAt blob m : ℚ) - (zp : ℚ)) else dst m := by
  intro n
  induction n with
  | zero =>
    intro dst m
    simp
  | succ n ih =>
    intro dst m
    rw [List.range_succ, List.foldl_append, List.foldl_cons, List.foldl_nil]
    rw [dequantStep_apply blob scale zp k K _ (2 * n) m (by omega)]
    by_cases hm1 : m = 2 * n + 1
    · subst hm1
      rw [if_neg (by omega)]
      by_cases hc1 : k + ((2 * n : ℕ) : ℤ) + 1 < K
      · rw [if_pos ⟨rfl, hc1⟩, if_pos (by constructor <;> omega)]
      · rw [if_neg (by omega), ih, if_neg (by omega), if_neg (by omega)]
    · by_cases hm0 : m = 2 * n
      · subst hm0
        by_cases hc0 : k + ((2 * n : ℕ) : ℤ) < K
        · rw [if_pos ⟨rfl, hc0⟩, if_pos (by constructor <;> omega)]
        · rw [if_neg (by omega), if_neg (by omega), ih,
            if_neg (by omega), if_neg (by omega)]
      · rw [if_neg (by omega), if_neg (by omega), ih]
        by_cases hin : m < 2 * n ∧ k + (m : ℤ) < K
        · rw [if_pos hin, if_pos ⟨by omega, hin.2⟩]
        · have hneg : ¬(m < 2 * (n + 1) ∧ k + (m : ℤ) < K) :=
            fun hcon => hin ⟨by omega, hcon.2⟩
          rw [if_neg hin, if_neg hneg]

theorem dequant4_apply (bs : ℕ) (hbs : bs % 2 = 0) (blob : ℕ → ℕ) (scale : ℚ)
    (zp : ℕ) (k K : ℤ) (dst : ℕ → ℚ) (m : ℕ) :
    dequant4 bs blob scale zp k K dst m
      = if m < bs ∧ k + (m : ℤ) < K
        then scale * ((nibAt blob m : ℚ) - (zp : ℚ)) else dst m := by
  unfold dequant4
  rw [dequantIter_apply]
  have h2 : 2 * (bs / 2) = bs := by omega
  rw [h2]

/-! ### Value-level round-trip: asymmetric mode -/

theorem qOne_eq (m : ℕ) (recip : ℚ) (zp : ℕ) (v : ℚ) :
    qOne m recip zp v
      = (min (m : ℤ) (max 0 (roundAway (v * recip + (zp : ℚ))))).toNat := by
  unfold qOne
  have h : qmin2 (m : ℚ) (qmax2 0 ((roundAway (v * recip + (zp : ℚ)) : ℤ) : ℚ))
      = ((min (m : ℤ) (max 0 (roundAway (v * recip + (zp : ℚ)))) : ℤ) : ℚ) := by
    rw [qmin2_eq_min, qmax2_eq_max]
    push_cast
    rfl
  rw [h, Int.floor_intCast]

theorem qOne_le (m : ℕ) (recip : ℚ) (zp : ℕ) (v : ℚ) : qOne m recip zp v ≤ m := by
  rw [qOne_eq]
  exact Int.toNat_le.mpr (min_le_left _ _)

theorem blkScale_nonneg (m : ℕ) (mn mx : ℚ) (hmn : mn ≤ 0) (hmx : 0 ≤ mx) :
    0 ≤ blkScale m mn mx := by
  unfold blkScale
  exact div_nonneg (by linarith) (Nat.cast_nonneg m)

theorem blkScale_eq_zero (m : ℕ) (hm : 1 ≤ m) (mn mx : ℚ) (hmn : mn ≤ 0)
    (hmx : 0 ≤ mx) (h : blkScale m mn mx = 0) : mn = 0 ∧ mx = 0 := by
  unfold blkScale at h
  have hm' : ((m : ℕ) : ℚ) ≠ 0 :=
    ne_of_gt (by exact_mod_cast Nat.lt_of_lt_of_le Nat.zero_lt_one hm)
  rcases div_eq_zero_iff.mp h with h' | h'
  · constructor <;> linarith
  · exact absurd h' hm'

theorem blkZp_spec (m : ℕ) (hm : 1 ≤ m) (mn mx : ℚ) (hmn : mn ≤ 0) (hmx : 0 ≤ mx)
    (hs : blkScale m mn mx ≠ 0) :
    |((blkZp m mn mx : ℕ) : ℚ) - (0 - mn / blkScale m mn mx)| ≤ 1/2 ∧
    blkZp m mn mx ≤ m := by
  have hs0 : 0 ≤ blkScale m mn mx := blkScale_nonneg m mn mx hmn hmx
  have hspos : 0 < blkScale m mn mx := lt_of_le_of_ne hs0 (Ne.symm hs)
  have hzpf : blkZpf m mn mx = 0 - mn / blkScale m mn mx := by
    unfold blkZpf
    rw [if_neg hs]
  have h0 : 0 ≤ blkZpf m mn mx := by
    rw [hzpf]
    have : mn / blkScale m mn mx ≤ 0 :=
      div_nonpos_iff.mpr (Or.inr ⟨hmn, hs0⟩)
    linarith
  have hms : (m : ℚ) * blkScale m mn mx = mx - mn := by
    unfold blkScale
    have hm' : ((m : ℕ) : ℚ) ≠ 0 :=
      ne_of_gt (by exact_mod_cast Nat.lt_of_lt_of_le Nat.zero_lt_one hm)
    field_simp
  have hub : blkZpf m mn mx ≤ m := by
    rw [hzpf]
    have h1 : (0 : ℚ) - mn / blkScale m mn mx = -mn / blkScale m mn mx := by ring
    rw [h1, div_le_iff₀ hspos]
    linarith [hms]
  have herr := roundAway_err (blkZpf m mn mx)
  have hr0 : 0 ≤ roundAway (blkZpf m mn mx) := by
    by_contra hneg
    push_neg at hneg
    have h1 : ((roundAway (blkZpf m mn mx) : ℤ) : ℚ) ≤ -1 := by
      exact_mod_cast (by omega : roundAway (blkZpf m mn mx) ≤ -1)
    have h2 := abs_le.mp herr
    linarith
  have hzp : blkZp m mn mx = (roundAway (blkZpf m mn mx)).toNat := by
    unfold blkZp
    rw [if_neg (not_lt.mpr h0), if_neg (not_lt.mpr hub)]
  have hcast : ((blkZp m mn mx : ℕ) : ℚ)
      = ((roundAway (blkZpf m mn mx) : ℤ) : ℚ) := by
    rw [hzp]
    have h1 : (((roundAway (blkZpf m mn mx)).toNat : ℕ) : ℤ)
        = roundAway (blkZpf m mn mx) := Int.toNat_of_nonneg hr0
    exact_mod_cast congrArg (fun z : ℤ => (z : ℚ)) h1
  constructor
  · rw [hcast, ← hzpf]
    exact herr
  · rw [hzp]
    have h2 := abs_le.mp herr
    have h3 : ((roundAway (blkZpf m mn mx) : ℤ) : ℚ) < (m : ℚ) + 1 := by linarith
    have h4 : roundAway (blkZpf m mn mx) < (m : ℤ) + 1 := by exact_mod_cast h3
    exact Int.toNat_le.mpr (by omega)

/-- Core numeric bound for the asymmetric quantize/dequantize round trip at
any width parameter `m = 2^bits - 1`: for every value of the (zero-clamped)
block range, the reconstruction error is at most one quantization step. -/
theorem asym_core (m : ℕ) (hm : 1 ≤ m) (mn mx v : ℚ) (hmn : mn ≤ 0)
    (hmx : 0 ≤ mx) (hv1 : mn ≤ v) (hv2 : v ≤ mx) :
    |blkScale m mn mx
        * ((qOne m (recipOf (blkScale m mn mx)) (blkZp m mn mx) v : ℚ)
            - (blkZp m mn mx : ℚ))
      - v| ≤ blkScale m mn mx := by
  by_cases hs : blkScale m mn mx = 0
  · obtain ⟨h1, h2⟩ := blkScale_eq_zero m hm mn mx hmn hmx hs
    have hv0 : v = 0 := le_antisymm (h2 ▸ hv2) (h1 ▸ hv1)
    have hzpf : blkZpf m mn mx = 0 := by
      unfold blkZpf
      rw [if_pos hs]
      exact h1
    have hzp : blkZp m mn mx = 0 := by
      unfold blkZp
      rw [hzpf, if_neg (by norm_num), if_neg (not_lt.mpr (Nat.cast_nonneg m)),
        roundAway_zero]
      rfl
    have hq : qOne m (recipOf (blkScale m mn mx)) (blkZp m mn mx) v = 0 := by
      rw [qOne_eq, hzp, hv0]
      simp [roundAway_zero]
    rw [hq, hzp, hv0, hs]
    simp
  · have hs0 : 0 ≤ blkScale m mn mx := blkScale_nonneg m mn mx hmn hmx
    have hspos : 0 < blkScale m mn mx := lt_of_le_of_ne hs0 (Ne.symm hs)
    obtain ⟨hzperr, hzple⟩ := blkZp_spec m hm mn mx hmn hmx hs
    have hrecip : recipOf (blkScale m mn mx) = 1 / blkScale m mn mx := by
      unfold recipOf
      rw [if_neg hs]
    have hms : (m : ℚ) * blkScale m mn mx = mx - mn := by
      unfold blkScale
      have hm' : ((m : ℕ) : ℚ) ≠ 0 :=
        ne_of_gt (by exact_mod_cast Nat.lt_of_lt_of_le Nat.zero_lt_one hm)
      field_simp
    have hzperr' := abs_le.mp hzperr
    have hxval : v * recipOf (blkScale m mn mx) + ((blkZp m mn mx : ℕ) : ℚ)
        = v / blkScale m mn mx + ((blkZp m mn mx : ℕ) : ℚ) := by
      rw [hrecip]
      ring
    have hdiv_lo : mn / blkScale m mn mx ≤ v / blkScale m mn mx :=
      (div_le_div_iff_of_pos_right hspos).mpr hv1
    have hdiv_hi : v / blkScale m mn mx ≤ mx / blkScale m mn mx :=
      (div_le_div_iff_of_pos_right hspos).mpr hv2
    have hmx_div : mx / blkScale m mn mx
        = (m : ℚ) + mn / blkScale m mn mx := by
      field_simp
      linarith [hms]
    have hx_lo : -(1/2) ≤ v / blkScale m mn mx + ((blkZp m mn mx : ℕ) : ℚ) := by
      linarith
    have hx_hi : v / blkScale m mn mx + ((blkZp m mn mx : ℕ) : ℚ)
        ≤ (m : ℚ) + 1/2 := by
      linarith
    set x := v / blkScale m mn mx + ((blkZp m mn mx : ℕ) : ℚ) with hxdef
    have hrerr := abs_le.mp (roundAway_err x)
    set r := roundAway x with hrdef
    have hq_eq : qOne m (recipOf (blkScale m mn mx)) (blkZp m mn mx) v
        = (min (m : ℤ) (max 0 r)).toNat := by
      rw [qOne_eq, hrdef, ← hxval]
    have hq'0 : (0 : ℤ) ≤ min (m : ℤ) (max 0 r) :=
      le_min (Int.ofNat_nonneg m) (le_max_left 0 r)
    have hq'cast : ((qOne m (recipOf (blkScale m mn mx)) (blkZp m mn mx) v : ℕ) : ℚ)
        = ((min (m : ℤ) (max 0 r) : ℤ) : ℚ) := by
      rw [hq_eq]
      have h1 : (((min (m : ℤ) (max 0 r)).toNat : ℕ) : ℤ)
          = min (m : ℤ) (max 0 r) := Int.toNat_of_nonneg hq'0
      exact_mod_cast congrArg (fun z : ℤ => (z : ℚ)) h1
    have key : |((min (m : ℤ) (max 0 r) : ℤ) : ℚ) - x| ≤ 1/2 := by
      by_cases hr0 : r < 0
      · have hrge : (-1 : ℤ) ≤ r := by
          have h1 : x - 1/2 ≤ ((r : ℤ) : ℚ) := by linarith
          have h2 : (-1 : ℚ) ≤ ((r : ℤ) : ℚ) := by linarith
          exact_mod_cast h2
        have hrle : ((r : ℤ) : ℚ) ≤ -1 := by
          exact_mod_cast (by omega : r ≤ -1)
        have hx_eq : x = -(1/2) := le_antisymm (by linarith) hx_lo
        have hmax : max (0 : ℤ) r = 0 := max_eq_left (by omega)
        have hmin : min (m : ℤ) (0 : ℤ) = 0 := min_eq_right (Int.ofNat_nonneg m)
        rw [hmax, hmin, hx_eq, abs_le]
        constructor <;> norm_num
      · by_cases hrm : (m : ℤ) < r
        · have hrle : r ≤ (m : ℤ) + 1 := by
            have h1 : ((r : ℤ) : ℚ) ≤ x + 1/2 := by linarith
            have h2 : ((r : ℤ) : ℚ) ≤ (m : ℚ) + 1 := by linarith
            exact_mod_cast h2
          have hx_eq : x = (m : ℚ) + 1/2 := by
            have h1 : ((m : ℤ) : ℚ) + 1 ≤ ((r : ℤ) : ℚ) := by
              exact_mod_cast (by omega : (m : ℤ) + 1 ≤ r)
            refine le_antisymm hx_hi ?_
            push_cast at h1
            linarith
          have hmax : max (0 : ℤ) r = r := max_eq_right (not_lt.mp hr0)
          have hmin : min (m : ℤ) r = (m : ℤ) := min_eq_left (by omega)
          rw [hmax, hmin, hx_eq]
          have h2 : ((m : ℤ) : ℚ) - ((m : ℚ) + 1/2) = -(1/2) := by
            push_cast
            ring
          rw [h2, abs_neg, abs_of_nonneg (by norm_num : (0:ℚ) ≤ 1/2)]
        · have hmax : max (0 : ℤ) r = r := max_eq_right (not_lt.mp hr0)
          have hmin : min (m : ℤ) r = r := min_eq_right (not_lt.mp hrm)
          rw [hmax, hmin]
          exact abs_le.mpr hrerr
    have htrans : blkScale m mn mx
          * (((min (m : ℤ) (max 0 r) : ℤ) : ℚ) - ((blkZp m mn mx : ℕ) : ℚ)) - v
        = blkScale m mn mx * (((min (m : ℤ) (max 0 r) : ℤ) : ℚ) - x) := by
      rw [hxdef]
      field_simp
      ring
    calc |blkScale m mn mx
          * (((qOne m (recipOf (blkScale m mn mx)) (blkZp m mn mx) v : ℕ) : ℚ)
              - ((blkZp m mn mx : ℕ) : ℚ))
          - v|
          = |blkScale m mn mx
              * (((min (m : ℤ) (max 0 r) : ℤ) : ℚ) - ((blkZp m mn mx : ℕ) : ℚ)) - v| := by
            rw [hq'cast]
      _ = blkScale m mn mx * |((min (m : ℤ) (max 0 r) : ℤ) : ℚ) - x| := by
            rw [htrans, abs_mul, abs_of_nonneg hs0]
      _ ≤ blkScale m mn mx * (1/2) := mul_le_mul_of_nonneg_left key hs0
      _ ≤ blkScale m mn mx := by linarith

/-! ### Value-level round-trip: symmetric mode (`bits = 4`) -/

theorem symQOne_le (recip v : ℚ) : symQOne recip v ≤ 15 := by
  unfold symQOne
  rw [qmin2_eq_min, qmax2_eq_max]
  have h1 : min (15 : ℚ) (max 0 (v * recip + 17/2)) ≤ 15 := min_le_left _ _
  have h2 : ⌊min (15 : ℚ) (max 0 (v * recip + 17/2))⌋ ≤ (15 : ℤ) := by
    have := Int.floor_le_floor h1
    simpa using this
  exact Int.toNat_le.mpr h2

/-- Core numeric bound for the symmetric (`bits = 4`) quantize/dequantize
round trip: for every value whose magnitude is at most the block's `amax`,
the reconstruction error is at most one quantization step `|max / (-8)|`. -/
theorem sym_core (mS v : ℚ) (hv : qabs v ≤ qabs mS) :
    |mS / (-8) * ((symQOne (recipOf (mS / (-8))) v : ℚ) - 8) - v|
      ≤ |mS / (-8)| := by
  rw [qabs_eq_abs, qabs_eq_abs] at hv
  by_cases hs : mS / (-8) = 0
  · have hmS : mS = 0 := by
      rcases div_eq_zero_iff.mp hs with h | h
      · exact h
      · norm_num at h
    have hv0 : v = 0 := by
      rw [hmS] at hv
      simp only [abs_zero] at hv
      exact abs_eq_zero.mp (le_antisymm hv (abs_nonneg v))
    have hq : symQOne (recipOf (mS / (-8))) v = 8 := by
      rw [hv0]
      unfold symQOne
      rw [zero_mul, zero_add, qmin2_eq_min, qmax2_eq_max]
      rw [max_eq_right (by norm_num : (0:ℚ) ≤ 17/2),
        min_eq_right (by norm_num : (17/2:ℚ) ≤ 15)]
      have hfl : ⌊(17/2 : ℚ)⌋ = 8 := by
        rw [Int.floor_eq_iff]
        constructor <;> norm_num
      rw [hfl]
      rfl
    rw [hq, hv0, hs]
    simp
  · have hmS : mS ≠ 0 := by
      intro h
      exact hs (by rw [h, zero_div])
    have habs : |mS / (-8)| = |mS| / 8 := by
      rw [abs_div]
      norm_num
    have hspos : 0 < |mS / (-8)| := abs_pos.mpr hs
    have hrecip : recipOf (mS / (-8)) = 1 / (mS / (-8)) := by
      unfold recipOf
      rw [if_neg hs]
    have hvs : |v / (mS / (-8))| ≤ 8 := by
      rw [abs_div, div_le_iff₀ hspos, habs]
      have h8 : (8 : ℚ) * (|mS| / 8) = |mS| := by ring
      rw [h8]
      exact hv
    have hvs' := abs_le.mp hvs
    have hxval : v * recipOf (mS / (-8)) + 17/2 = v / (mS / (-8)) + 17/2 := by
      rw [hrecip]
      ring
    set x := v / (mS / (-8)) + 17/2 with hxdef
    clear_value x
    have hx_lo : 1/2 ≤ x := by
      rw [hxdef]
      linarith
    have hx_hi : x ≤ 33/2 := by
      rw [hxdef]
      linarith
    have hq_eq : symQOne (recipOf (mS / (-8))) v = (⌊min 15 x⌋).toNat := by
      unfold symQOne
      rw [qmin2_eq_min, qmax2_eq_max, hxval]
      rw [max_eq_right (by linarith : (0:ℚ) ≤ x)]
    have hfl0 : 0 ≤ ⌊min (15:ℚ) x⌋ := by
      rw [Int.le_floor]
      push_cast
      exact le_min (by norm_num) (by linarith)
    have hcast : ((symQOne (recipOf (mS / (-8))) v : ℕ) : ℚ)
        = ((⌊min (15:ℚ) x⌋ : ℤ) : ℚ) := by
      rw [hq_eq]
      have h1 : ((⌊min (15:ℚ) x⌋.toNat : ℕ) : ℤ) = ⌊min (15:ℚ) x⌋ :=
        Int.toNat_of_nonneg hfl0
      exact_mod_cast congrArg (fun z : ℤ => (z : ℚ)) h1
    have key : |((⌊min (15:ℚ) x⌋ : ℤ) : ℚ) - x + 1/2| ≤ 1 := by
      by_cases h16 : x < 16
      · have hfloor : ⌊min (15:ℚ) x⌋ = ⌊x⌋ := by
          rcases le_or_lt x 15 with h15 | h15
          · rw [min_eq_right h15]
          · rw [min_eq_left h15.le]
            have hfx : ⌊x⌋ = 15 := by
              rw [Int.floor_eq_iff]
              constructor
              · push_cast
                linarith
              · push_cast
                linarith
            rw [hfx]
            norm_num
        have h1 : ((⌊x⌋ : ℤ) : ℚ) ≤ x := Int.floor_le x
        have h2 : x < ((⌊x⌋ : ℤ) : ℚ) + 1 := Int.lt_floor_add_one x
        rw [hfloor, abs_le]
        constructor <;> linarith
      · have h1 : min (15:ℚ) x = 15 := min_eq_left (by linarith)
        have hfl : ⌊min (15:ℚ) x⌋ = 15 := by
          rw [h1]
          norm_num
        rw [hfl, abs_le]
        push_cast
        constructor <;> linarith
    have htrans : mS / (-8) * (((⌊min (15:ℚ) x⌋ : ℤ) : ℚ) - 8) - v
        = mS / (-8) * (((⌊min (15:ℚ) x⌋ : ℤ) : ℚ) - x + 1/2) := by
      rw [hxdef]
      field_simp
      ring
    calc |mS / (-8) * (((symQOne (recipOf (mS / (-8))) v : ℕ) : ℚ) - 8) - v|
        = |mS / (-8) * (((⌊min (15:ℚ) x⌋ : ℤ) : ℚ) - 8) - v| := by rw [hcast]
      _ = |mS / (-8)| * |((⌊min (15:ℚ) x⌋ : ℤ) : ℚ) - x + 1/2| := by
          rw [htrans, abs_mul]
      _ ≤ |mS / (-8)| * 1 :=
          mul_le_mul_of_nonneg_left key (abs_nonneg _)
      _ = |mS / (-8)| := mul_one _

/-! ### Claim C1: quant/dequant round trip -/

theorem lt_klenOf (bs : ℕ) (k K : ℤ) (i : ℕ) :
    i < klenOf bs k K ↔ i < bs ∧ k + (i : ℤ) < K := by
  unfold klenOf zmin
  split_ifs <;> omega

theorem rawMin_le (src : ℕ → ℚ) (N klen i : ℕ) (hi : i < klen) :
    rawMin src N klen ≤ src (N * i) := by
  unfold rawMin
  exact foldl_min_le (fun kk => src (N * kk)) (List.range klen) (src 0) i
    (List.mem_range.mpr hi)

theorem le_rawMax (src : ℕ → ℚ) (N klen i : ℕ) (hi : i < klen) :
    src (N * i) ≤ rawMax src N klen := by
  unfold rawMax
  exact foldl_le_max (fun kk => src (N * kk)) (List.range klen) (src 0) i
    (List.mem_range.mpr hi)

/-- C1 (amended): `quant` followed by `dequant` reproduces every valid
element within one quantization step `|scale|` (the absolute value is the
amendment: the symmetric 4-bit scale `max / (-8)` is negative whenever the
dominant value is positive).  First part: the value-level path at every
width `bits ∈ {3,4,5,6,7}` (modelled from the spec for the widths whose
specializations are not in the provided sources).  Second part: the full
`bits = 4` code path — packed blob, scale and zero-point from `quant`, then
`dequant` — in both asymmetric and symmetric modes, for every block size
divisible by 8 and every valid element index. -/
theorem c1_roundtrip :
    (∀ b ∈ ([3, 4, 5, 6, 7] : List ℕ), ∀ (vals : List ℚ) (i : ℕ),
      i < vals.length →
      |specDequantElem b vals i - vals.getD i 0| ≤ |specScaleOf b vals|) ∧
    (∀ (bs N : ℕ) (src : ℕ → ℚ) (k K : ℤ) (blob0 : ℕ → ℕ) (dst : ℕ → ℚ) (i : ℕ),
      8 ∣ bs → i < bs → k + (i : ℤ) < K →
      |dequant4 bs (quantAsym bs src N k K blob0).1 (quantAsym bs src N k K blob0).2.1
          (quantAsym bs src N k K blob0).2.2 k K dst i - src (N * i)|
        ≤ |(quantAsym bs src N k K blob0).2.1| ∧
      |dequant4Default bs (quantSym bs src N k K blob0).1 (quantSym bs src N k K blob0).2
          k K dst i - src (N * i)|
        ≤ |(quantSym bs src N k K blob0).2|) := by
  constructor
  · intro b hb vals i hi
    simp only [List.mem_cons, List.not_mem_nil, or_false] at hb
    have hM : 1 ≤ 2 ^ b - 1 := by
      rcases hb with rfl | rfl | rfl | rfl | rfl <;> norm_num
    have hmn : (specMinMax vals).1 ≤ 0 := by
      simp only [specMinMax, qmin2_eq_min]
      exact min_le_right _ _
    have hmx : 0 ≤ (specMinMax vals).2 := by
      simp only [specMinMax, qmax2_eq_max]
      exact le_max_right _ _
    have hvmem : vals.getD i 0 ∈ vals := by
      rw [List.getD_eq_getElem vals 0 hi]
      exact List.getElem_mem hi
    have hv1 : (specMinMax vals).1 ≤ vals.getD i 0 := by
      show qmin2 (vals.foldl (fun m v => qmin2 m v) (vals.headD 0)) 0
        ≤ vals.getD i 0
      rw [qmin2_eq_min]
      refine le_trans (min_le_left _ _) ?_
      simp only [qmin2]
      exact foldl_min_le (fun v => v) vals (vals.headD 0) _ hvmem
    have hv2 : vals.getD i 0 ≤ (specMinMax vals).2 := by
      show vals.getD i 0
        ≤ qmax2 (vals.foldl (fun m v => qmax2 m v) (vals.headD 0)) 0
      rw [qmax2_eq_max]
      refine le_trans ?_ (le_max_left _ _)
      simp only [qmax2]
      exact foldl_le_max (fun v => v) vals (vals.headD 0) _ hvmem
    have core := asym_core (2 ^ b - 1) hM (specMinMax vals).1 (specMinMax vals).2
      (vals.getD i 0) hmn hmx hv1 hv2
    have hnn : 0 ≤ specScaleOf b vals :=
      blkScale_nonneg (2 ^ b - 1) _ _ hmn hmx
    rw [abs_of_nonneg hnn]
    exact core
  · intro bs N src k K blob0 dst i h8 hib hik
    have hklen : i < klenOf bs k K := (lt_klenOf bs k K i).mpr ⟨hib, hik⟩
    have hbs2 : bs % 2 = 0 := by omega
    have hilt : i < 2 * ((klenOf bs k K + 1) / 2) := by
      have : i < klenOf bs k K := hklen
      omega
    constructor
    · rw [show (quantAsym bs src N k K blob0).1
          = packBytes (asymF bs src N k K) ((klenOf bs k K + 1) / 2) blob0 from rfl,
        show (quantAsym bs src N k K blob0).2.1 = asymScale bs src N k K from rfl,
        show (quantAsym bs src N k K blob0).2.2 = asymZp bs src N k K from rfl]
      rw [dequant4_apply bs hbs2 _ _ _ k K dst i, if_pos ⟨hib, hik⟩]
      rw [nibAt_packBytes (asymF bs src N k K)
        (fun j => lt_of_le_of_lt (qOne_le 15 _ _ _) (by norm_num)) _ blob0 i hilt]
      rw [show asymF bs src N k K i
          = qOne 15 (recipOf (asymScale bs src N k K)) (asymZp bs src N k K)
            (src (N * i)) by unfold asymF; rw [if_pos hklen]]
      have hmn : asymMn bs src N k K ≤ 0 := by
        unfold asymMn
        rw [qmin2_eq_min]
        exact min_le_right _ _
      have hmx : 0 ≤ asymMx bs src N k K := by
        unfold asymMx
        rw [qmax2_eq_max]
        exact le_max_right _ _
      have hv1 : asymMn bs src N k K ≤ src (N * i) := by
        unfold asymMn
        rw [qmin2_eq_min]
        exact le_trans (min_le_left _ _) (rawMin_le src N _ i hklen)
      have hv2 : src (N * i) ≤ asymMx bs src N k K := by
        unfold asymMx
        rw [qmax2_eq_max]
        exact le_trans (le_rawMax src N _ i hklen) (le_max_left _ _)
      have core := asym_core 15 (by norm_num) (asymMn bs src N k K)
        (asymMx bs src N k K) (src (N * i)) hmn hmx hv1 hv2
      have hnn : 0 ≤ asymScale bs src N k K :=
        blkScale_nonneg 15 _ _ hmn hmx
      rw [abs_of_nonneg hnn]
      exact core
    · rw [show (quantSym bs src N k K blob0).1
          = packBytes (symF bs src N k K) ((klenOf bs k K + 1) / 2) blob0 from rfl,
        show (quantSym bs src N k K blob0).2 = symScale bs src N k K from rfl]
      unfold dequant4Default
      rw [dequant4_apply bs hbs2 _ _ _ k K dst i, if_pos ⟨hib, hik⟩]
      rw [nibAt_packBytes (symF bs src N k K)
        (fun j => lt_of_le_of_lt (symQOne_le _ _) (by norm_num)) _ blob0 i hilt]
      rw [show symF bs src N k K i
          = symQOne (recipOf (symScale bs src N k K)) (src (N * i))
          by unfold symF; rw [if_pos hklen]]
      obtain ⟨habs_eq, _, hbound⟩ := amax_fold (fun kk => src (N * kk))
        (List.range (klenOf bs k K)) ((0 : ℚ), (0 : ℚ))
        (by unfold qabs; norm_num)
      have hv : qabs (src (N * i)) ≤ qabs ((symAmaxPair bs src N k K).2) := by
        refine le_trans (hbound i (List.mem_range.mpr hklen)) (le_of_eq ?_)
        exact habs_eq
      have core := sym_core ((symAmaxPair bs src N k K).2) (src (N * i)) hv
      rw [show ((8 : ℕ) : ℚ) = (8 : ℚ) by norm_num]
      exact core

/-- C1 (counterexample): in symmetric mode the computed scale can be
negative (`max = 1.0` gives `scale = -1/8`), and then the claimed bound
`|reconstructed - original| <= scale` fails: with block
`1.0, 0.3, 0, ..., 0`, element 1 reconstructs to `1/4`, an error of `1/20`,
which is not `≤ -1/8`. -/
theorem c1_counterexample :
    ¬ |dequant4Default 8 (quantSym 8 srcEx 1 0 8 (fun _ => 0)).1
          (quantSym 8 srcEx 1 0 8 (fun _ => 0)).2 0 8 (fun _ => 0) 1
        - srcEx (1 * 1)|
      ≤ (quantSym 8 srcEx 1 0 8 (fun _ => 0)).2 := by
  have h1 : (quantSym 8 srcEx 1 0 8 (fun _ => 0)).2 = -(1/8) := by
    with_unfolding_all rfl
  have h2 : dequant4Default 8 (quantSym 8 srcEx 1 0 8 (fun _ => 0)).1
      (quantSym 8 srcEx 1 0 8 (fun _ => 0)).2 0 8 (fun _ => 0) 1 = 1/4 := by
    with_unfolding_all rfl
  have h3 : srcEx (1 * 1) = 3/10 := by with_unfolding_all rfl
  rw [h2, h1, h3]
  have h4 : (1/4 : ℚ) - 3/10 = -(1/20) := by norm_num
  rw [h4, abs_neg, abs_of_nonneg (by norm_num : (0:ℚ) ≤ 1/20)]
  norm_num

theorem c1_roundtrip_witness :
    ((3 : ℕ) ∈ ([3, 4, 5, 6, 7] : List ℕ) ∧
      2 < ([0, 1/2, 1, -1] : List ℚ).length ∧
      |specDequantElem 3 [0, 1/2, 1, -1] 2 - ([0, 1/2, 1, -1] : List ℚ).getD 2 0|
        ≤ |specScaleOf 3 [0, 1/2, 1, -1]|) ∧
    ((8 : ℕ) ∣ 8 ∧ (1 : ℕ) < 8 ∧ (0 : ℤ) + ((1 : ℕ) : ℤ) < 8 ∧
      (|dequant4 8 (quantAsym 8 srcEx 1 0 8 (fun _ => 0)).1
          (quantAsym 8 srcEx 1 0 8 (fun _ => 0)).2.1
          (quantAsym 8 srcEx 1 0 8 (fun _ => 0)).2.2 0 8 (fun _ => 0) 1
          - srcEx (1 * 1)|
        ≤ |(quantAsym 8 srcEx 1 0 8 (fun _ => 0)).2.1| ∧
      |dequant4Default 8 (quantSym 8 srcEx 1 0 8 (fun _ => 0)).1
          (quantSym 8 srcEx 1 0 8 (fun _ => 0)).2 0 8 (fun _ => 0) 1
          - srcEx (1 * 1)|
        ≤ |(quantSym 8 srcEx 1 0 8 (fun _ => 0)).2|)) :=
  ⟨⟨by decide, by norm_num,
    c1_roundtrip.1 3 (by decide) [0, 1/2, 1, -1] 2 (by norm_num)⟩,
   ⟨by decide, by norm_num, by norm_num,
    c1_roundtrip.2 8 1 srcEx 0 8 (fun _ => 0) (fun _ => 0) 1
      (by decide) (by norm_num) (by norm_num)⟩⟩

/-! ### Claims C7, C8, C9 -/

/-- C7: the `bits = 4` `dequant` writes `dst[i]` exactly for the in-block
indices with `k_idx + i < K` (giving `scale * (nibble - zp)`), and leaves
every other `dst` element — beyond the block or beyond the tensor's row
count `K` — untouched. -/
theorem c7_dequant_frame (bs : ℕ) (hbs : 2 ∣ bs) (blob : ℕ → ℕ) (scale : ℚ)
    (zp : ℕ) (k K : ℤ) (dst : ℕ → ℚ) :
    (∀ i : ℕ, i < bs → k + (i : ℤ) < K →
      dequant4 bs blob scale zp k K dst i
        = scale * ((nibAt blob i : ℚ) - (zp : ℚ))) ∧
    (∀ i : ℕ, bs ≤ i ∨ K ≤ k + (i : ℤ) →
      dequant4 bs blob scale zp k K dst i = dst i) := by
  have hbs2 : bs % 2 = 0 := by omega
  constructor
  · intro i h1 h2
    rw [dequant4_apply bs hbs2, if_pos ⟨h1, h2⟩]
  · intro i h
    rw [dequant4_apply bs hbs2, if_neg ?_]
    rintro ⟨hc1, hc2⟩
    rcases h with h | h <;> omega

theorem c7_dequant_frame_witness :
    (2 : ℕ) ∣ 8 ∧
    ((∀ i : ℕ, i < 8 → (8 : ℤ) + (i : ℤ) < 11 →
      dequant4 8 (fun _ => 0) 1 0 8 11 (fun _ => 5) i
        = 1 * ((nibAt (fun _ => 0) i : ℚ) - ((0 : ℕ) : ℚ))) ∧
    (∀ i : ℕ, 8 ≤ i ∨ (11 : ℤ) ≤ 8 + (i : ℤ) →
      dequant4 8 (fun _ => 0) 1 0 8 11 (fun _ => 5) i = 5)) :=
  ⟨by decide, c7_dequant_frame 8 (by decide) (fun _ => 0) 1 0 8 11 (fun _ => 5)⟩

theorem blkZp_le (m : ℕ) (mn mx : ℚ) : blkZp m mn mx ≤ m := by
  unfold blkZp
  split_ifs with h1 h2
  · exact Nat.zero_le m
  · exact le_refl m
  · have herr := abs_le.mp (roundAway_err (blkZpf m mn mx))
    push_neg at h2
    have h3 : ((roundAway (blkZpf m mn mx) : ℤ) : ℚ) < (m : ℚ) + 1 := by
      linarith
    have h4 : roundAway (blkZpf m mn mx) < (m : ℤ) + 1 := by exact_mod_cast h3
    exact Int.toNat_le.mpr (by omega)

theorem qOne_padZero (m : ℕ) (recip : ℚ) (zp : ℕ) (hzp : zp ≤ m) :
    qOne m recip zp 0 = zp := by
  rw [qOne_eq, zero_mul, zero_add]
  rw [show ((zp : ℕ) : ℚ) = (((zp : ℕ) : ℤ) : ℚ) by push_cast; rfl]
  rw [roundAway_intCast]
  rw [max_eq_right (Int.ofNat_nonneg zp),
    min_eq_right (by exact_mod_cast hzp)]
  exact Int.toNat_natCast zp

theorem symQOne_padZero (recip : ℚ) : symQOne recip 0 = 8 := by
  unfold symQOne
  rw [zero_mul, zero_add, qmin2_eq_min, qmax2_eq_max]
  rw [max_eq_right (by norm_num : (0:ℚ) ≤ 17/2),
    min_eq_right (by norm_num : (17/2:ℚ) ≤ 15)]
  have hfl : ⌊(17/2 : ℚ)⌋ = 8 := by
    rw [Int.floor_eq_iff]
    constructor <;> norm_num
  rw [hfl]
  rfl

/-- C8: when the computed scale of a 4-bit block is `0` (a constant-zero
block), the reciprocal is taken as `0` (no division), and every valid
packed element is the quantized representation of zero: the zero-point in
asymmetric mode, `8` in symmetric mode. -/
theorem c8_scale_zero (bs N : ℕ) (src : ℕ → ℚ) (k K : ℤ) (blob0 : ℕ → ℕ) :
    (asymScale bs src N k K = 0 →
      recipOf (asymScale bs src N k K) = 0 ∧
      ∀ kk, kk < klenOf bs k K →
        nibAt (quantAsym bs src N k K blob0).1 kk
          = (quantAsym bs src N k K blob0).2.2) ∧
    (symScale bs src N k K = 0 →
      recipOf (symScale bs src N k K) = 0 ∧
      ∀ kk, kk < klenOf bs k K →
        nibAt (quantSym bs src N k K blob0).1 kk = 8) := by
  constructor
  · intro hs
    refine ⟨by unfold recipOf; rw [if_pos hs], ?_⟩
    intro kk hkk
    have hmn : asymMn bs src N k K ≤ 0 := by
      unfold asymMn
      rw [qmin2_eq_min]
      exact min_le_right _ _
    have hmx : 0 ≤ asymMx bs src N k K := by
      unfold asymMx
      rw [qmax2_eq_max]
      exact le_max_right _ _
    obtain ⟨hmn0, hmx0⟩ :=
      blkScale_eq_zero 15 (by norm_num) (asymMn bs src N k K)
        (asymMx bs src N k K) hmn hmx hs
    have hrmin : 0 ≤ rawMin src N (klenOf bs k K) := by
      have h1 : qmin2 (rawMin src N (klenOf bs k K)) 0 = 0 := hmn0
      rw [qmin2_eq_min] at h1
      rcases le_total (rawMin src N (klenOf bs k K)) 0 with h | h
      · rw [min_eq_left h] at h1
        exact le_of_eq h1.symm
      · exact h
    have hrmax : rawMax src N (klenOf bs k K) ≤ 0 := by
      have h1 : qmax2 (rawMax src N (klenOf bs k K)) 0 = 0 := hmx0
      rw [qmax2_eq_max] at h1
      rcases le_total (rawMax src N (klenOf bs k K)) 0 with h | h
      · exact h
      · rw [max_eq_left h] at h1
        exact le_of_eq h1
    have hv0 : src (N * kk) = 0 := by
      have h1 := rawMin_le src N (klenOf bs k K) kk hkk
      have h2 := le_rawMax src N (klenOf bs k K) kk hkk
      linarith
    have hs2 : blkScale 15 (asymMn bs src N k K) (asymMx bs src N k K) = 0 := hs
    have hzpf0 : blkZpf 15 (asymMn bs src N k K) (asymMx bs src N k K) = 0 := by
      unfold blkZpf
      rw [if_pos hs2]
      exact hmn0
    have hzp0 : asymZp bs src N k K = 0 := by
      unfold asymZp blkZp
      rw [hzpf0, if_neg (lt_irrefl 0), if_neg (by norm_num), roundAway_zero]
      rfl
    rw [show (quantAsym bs src N k K blob0).1
        = packBytes (asymF bs src N k K) ((klenOf bs k K + 1) / 2) blob0 from rfl,
      show (quantAsym bs src N k K blob0).2.2 = asymZp bs src N k K from rfl]
    rw [nibAt_packBytes (asymF bs src N k K)
      (fun j => lt_of_le_of_lt (qOne_le 15 _ _ _) (by norm_num)) _ blob0 kk
      (by omega)]
    unfold asymF
    rw [if_pos hkk, hv0, hzp0]
    exact qOne_padZero 15 _ 0 (by norm_num)
  · intro hs
    refine ⟨by unfold recipOf; rw [if_pos hs], ?_⟩
    intro kk hkk
    have hs' : (symAmaxPair bs src N k K).2 / (-8) = 0 := hs
    have hmS : (symAmaxPair bs src N k K).2 = 0 := by
      rcases div_eq_zero_iff.mp hs' with h | h
      · exact h
      · norm_num at h
    obtain ⟨habs_eq, _, hbound⟩ := amax_fold (fun kk => src (N * kk))
      (List.range (klenOf bs k K)) ((0 : ℚ), (0 : ℚ))
      (by unfold qabs; norm_num)
    have hv0 : src (N * kk) = 0 := by
      have h1 : qabs (src (N * kk)) ≤ qabs ((symAmaxPair bs src N k K).2) :=
        le_trans (hbound kk (List.mem_range.mpr hkk)) (le_of_eq habs_eq)
      rw [hmS, qabs_eq_abs, qabs_eq_abs, abs_zero] at h1
      exact abs_eq_zero.mp (le_antisymm h1 (abs_nonneg _))
    rw [show (quantSym bs src N k K blob0).1
        = packBytes (symF bs src N k K) ((klenOf bs k K + 1) / 2) blob0 from rfl]
    rw [nibAt_packBytes (symF bs src N k K)
      (fun j => lt_of_le_of_lt (symQOne_le _ _) (by norm_num)) _ blob0 kk
      (by omega)]
    unfold symF
    rw [if_pos hkk, hv0]
    exact symQOne_padZero _

theorem c8_scale_zero_witness :
    (asymScale 8 srcZeros 1 0 8 = 0 ∧
      (recipOf (asymScale 8 srcZeros 1 0 8) = 0 ∧
       ∀ kk, kk < klenOf 8 0 8 →
         nibAt (quantAsym 8 srcZeros 1 0 8 (fun _ => 0)).1 kk
           = (quantAsym 8 srcZeros 1 0 8 (fun _ => 0)).2.2)) ∧
    (symScale 8 srcZeros 1 0 8 = 0 ∧
      (recipOf (symScale 8 srcZeros 1 0 8) = 0 ∧
       ∀ kk, kk < klenOf 8 0 8 →
         nibAt (quantSym 8 srcZeros 1 0 8 (fun _ => 0)).1 kk = 8)) := by
  have hA : asymScale 8 srcZeros 1 0 8 = 0 := by with_unfolding_all rfl
  have hS : symScale 8 srcZeros 1 0 8 = 0 := by with_unfolding_all rfl
  exact ⟨⟨hA, (c8_scale_zero 8 1 srcZeros 0 8 (fun _ => 0)).1 hA⟩,
         ⟨hS, (c8_scale_zero 8 1 srcZeros 0 8 (fun _ => 0)).2 hS⟩⟩

/-- C9 (counterexample): the packing loop runs only up to `klen`, so blob
bytes past `⌈klen/2⌉` are not written and padding positions beyond the last
partial byte are NOT synthesized as quantized zero.  With `block_size = 8`,
`K = 3` (so `klen = 3`), a constant-one source and blob initialized to
`255`: padding position 4 reads back as `15`, not the quantized zero (the
zero-point, which is `0`), and blob byte 2 still holds its initial `255`. -/
theorem c9_counterexample :
    nibAt (quantAsym 8 srcOnes 1 0 3 (fun _ => 255)).1 4 = 15 ∧
    (quantAsym 8 srcOnes 1 0 3 (fun _ => 255)).2.2 = 0 ∧
    (quantAsym 8 srcOnes 1 0 3 (fun _ => 255)).1 2 = 255 := by
  refine ⟨?_, ?_, ?_⟩ <;> with_unfolding_all rfl

/-- C9 (amended): only the single padding position `klen` inside the last
partially-filled byte (present when `klen` is odd) is synthesized as the
quantized value of zero (the zero-point in asymmetric mode, `8` in
symmetric mode); blob bytes at indices `≥ ⌈klen/2⌉` are left unmodified. -/
theorem c9_padding (bs N : ℕ) (src : ℕ → ℚ) (k K : ℤ) (blob0 : ℕ → ℕ) :
    (∀ j, (klenOf bs k K + 1) / 2 ≤ j →
      (quantAsym bs src N k K blob0).1 j = blob0 j ∧
      (quantSym bs src N k K blob0).1 j = blob0 j) ∧
    (klenOf bs k K % 2 = 1 →
      nibAt (quantAsym bs src N k K blob0).1 (klenOf bs k K)
        = (quantAsym bs src N k K blob0).2.2 ∧
      nibAt (quantSym bs src N k K blob0).1 (klenOf bs k K) = 8) := by
  constructor
  · intro j hj
    constructor
    · rw [show (quantAsym bs src N k K blob0).1
          = packBytes (asymF bs src N k K) ((klenOf bs k K + 1) / 2) blob0 from rfl,
        packBytes_apply, if_neg (by omega)]
    · rw [show (quantSym bs src N k K blob0).1
          = packBytes (symF bs src N k K) ((klenOf bs k K + 1) / 2) blob0 from rfl,
        packBytes_apply, if_neg (by omega)]
  · intro hodd
    constructor
    · rw [show (quantAsym bs src N k K blob0).1
          = packBytes (asymF bs src N k K) ((klenOf bs k K + 1) / 2) blob0 from rfl,
        show (quantAsym bs src N k K blob0).2.2 = asymZp bs src N k K from rfl]
      rw [nibAt_packBytes (asymF bs src N k K)
        (fun j => lt_of_le_of_lt (qOne_le 15 _ _ _) (by norm_num)) _ blob0
        (klenOf bs k K) (by omega)]
      unfold asymF
      rw [if_neg (lt_irrefl _)]
      exact qOne_padZero 15 _ _ (blkZp_le 15 _ _)
    · rw [show (quantSym bs src N k K blob0).1
          = packBytes (symF bs src N k K) ((klenOf bs k K + 1) / 2) blob0 from rfl]
      rw [nibAt_packBytes (symF bs src N k K)
        (fun j => lt_of_le_of_lt (symQOne_le _ _) (by norm_num)) _ blob0
        (klenOf bs k K) (by omega)]
      unfold symF
      rw [if_neg (lt_irrefl _)]
      exact symQOne_padZero _

theorem c9_padding_witness :
    ((klenOf 8 0 3 + 1) / 2 ≤ 2 ∧
      ((quantAsym 8 srcOnes 1 0 3 (fun _ => 255)).1 2 = 255 ∧
       (quantSym 8 srcOnes 1 0 3 (fun _ => 255)).1 2 = 255)) ∧
    (klenOf 8 0 3 % 2 = 1 ∧
      (nibAt (quantAsym 8 srcOnes 1 0 3 (fun _ => 255)).1 (klenOf 8 0 3)
        = (quantAsym 8 srcOnes 1 0 3 (fun _ => 255)).2.2 ∧
       nibAt (quantSym 8 srcOnes 1 0 3 (fun _ => 255)).1 (klenOf 8 0 3) = 8)) :=
  ⟨⟨by decide, (c9_padding 8 1 srcOnes 0 3 (fun _ => 255)).1 2 (by decide)⟩,
   ⟨by decide, (c9_padding 8 1 srcOnes 0 3 (fun _ => 255)).2 (by decide)⟩⟩

end OnnxQuant
